import Mathlib

/-!
# Verification of the key-mapper injection core

A shallow embedding of the injection engine of the key-mapper repository:
the event reader dispatch logic (`event_reader.py`), the axis-to-button
handler (`abs_to_btn_handler.py`), the key handler (`key_handler.py`), the
macro interpreter state and tasks (`macros/macro.py`), and the mapping
parser with its hierarchy-resolution algorithm (`mapping_parser.py`).

Python machine integers are modelled as `Int`/`Nat` (no overflow is
relevant anywhere in this code), Python floats appearing in
`_trigger_point` are modelled exactly as rationals (all operations there
are exact on the inputs involved), fallible code is modelled with
`Option`/`Except`, and the asyncio tasks of the macro interpreter are
modelled by the sequences of events they emit through their write handler.
-/

namespace KeyMapper

/-! ## Event model

`evdev` event-type constants (values from the Linux input headers, as used
through `evdev.ecodes` in the source). -/

def EV_SYN : ℕ := 0

def EV_KEY : ℕ := 1

def EV_REL : ℕ := 2

def EV_ABS : ℕ := 3

def EV_MSC : ℕ := 4

/-- `EventActions` tags (`input_event.py`, not under `src/`; the spec
describes an attached action tag such as "synthesized as button" set when
a handler rewrites an event).  Only `as_key` is needed here. -/
inductive EventAction where
  | asKey
  deriving DecidableEq, Repr

/-- An immutable input event `{type, code, value}` plus the attached
action tag (spec §3; `input_event.py` is not under `src/`). -/
structure InputEvent where
  type : ℕ
  code : ℕ
  value : ℤ
  action : Option EventAction := none
  deriving DecidableEq, Repr

/-- `event.modify(value=…, action=…)` producing a new value (immutability
per spec §3). -/
def InputEvent.modifyEv (e : InputEvent) (value : ℤ) (action : EventAction) :
    InputEvent :=
  { e with value := value, action := some action }

/-! ## C5 / C6: the axis-to-button handler (`abs_to_btn_handler.py`) -/

/-- Python `int()` applied to a float/rational: truncation toward zero. -/
def pyInt (q : ℚ) : ℤ :=
  if 0 ≤ q then ⌊q⌋ else ⌈q⌉

/-- `AbsToBtnHandler._trigger_point` (abs_to_btn_handler.py:62-70).
`configValue` is `self._input_event.value`, the signed configured percent.
The float arithmetic of the source is exact on these inputs, so rationals
model it exactly; the final `int(...)` is `pyInt`. -/
def triggerPoint (absMin absMax : ℤ) (configValue : ℤ) : ℤ :=
  if absMin = -1 ∧ absMax = 1 then 0
  else
    let halfRange : ℚ := ((absMax : ℚ) - (absMin : ℚ)) / 2
    let middle : ℚ := halfRange + (absMin : ℚ)
    let triggerOffset : ℚ := halfRange * (configValue : ℚ) / 100
    pyInt (middle + triggerOffset)

/-- The spec's wording of the general-case formula:
`trigger = midpoint + halfRange * (configuredPercent / 100)` (spec §4.2),
as an exact rational. -/
def specTriggerFormula (absMin absMax : ℤ) (configValue : ℤ) : ℚ :=
  ((absMin : ℚ) + (absMax : ℚ)) / 2
    + ((absMax : ℚ) - (absMin : ℚ)) / 2 * ((configValue : ℚ) / 100)

/-- Device-reported axis range (`absinfo.min` / `absinfo.max`). -/
structure AbsInfo where
  min : ℤ
  max : ℤ
  deriving DecidableEq, Repr

/-- Result of one `AbsToBtnHandler.notify` call: the returned bool, the
new `_active` latch, and the event forwarded to the wrapped sub-handler
(`none` when the sub-handler was not notified). -/
structure AbsNotifyOut where
  consumed : Bool
  newActive : Bool
  forwarded : Option InputEvent
  deriving DecidableEq, Repr

/-- The pressed/not-pressed boolean computed by
`AbsToBtnHandler.notify` (abs_to_btn_handler.py:86-95): for a
positive-direction configuration, pressed means raw value strictly above
the trigger point; for a negative-direction one, strictly below. -/
def absPressed (config : InputEvent) (event : InputEvent) (info : AbsInfo) :
    Bool :=
  let tp := triggerPoint info.min info.max config.value
  if config.value > 0 then decide (event.value > tp)
  else decide (event.value < tp)

/-- `AbsToBtnHandler.notify` (abs_to_btn_handler.py:72-107).
`config` is `self._input_event`, `active` is the `_active` latch,
`subNotify` is the wrapped sub-handler's `notify` result function. -/
def absToBtnNotify (config : InputEvent) (active : Bool)
    (subNotify : InputEvent → Bool) (event : InputEvent) (info : AbsInfo) :
    AbsNotifyOut :=
  if (event.type, event.code) ≠ (config.type, config.code) then
    ⟨false, active, none⟩
  else
    let tp := triggerPoint info.min info.max config.value
    let ev :=
      if config.value > 0 then
        if event.value > tp then event.modifyEv 1 .asKey
        else event.modifyEv 0 .asKey
      else
        if event.value < tp then event.modifyEv 1 .asKey
        else event.modifyEv 0 .asKey
    if decide (ev.value ≠ 0) = active then
      ⟨true, active, none⟩
    else
      ⟨subNotify ev, decide (ev.value ≠ 0), some ev⟩

/-! ## C7: the macro trigger latches (`macros/macro.py`)

`Macro.__init__` creates an `asyncio.Event` pair: `_trigger_release_event`
(set on construction) and `_trigger_press_event` (cleared on
construction).  `press_trigger` / `release_trigger` update both; a child
macro receives exactly the same two calls, so one latch pair models every
instance. -/

structure TriggerLatches where
  pressSet : Bool
  releaseSet : Bool
  deriving DecidableEq, Repr

/-- `Macro.__init__` (macro.py:200-218): released by default. -/
def initLatches : TriggerLatches :=
  ⟨false, true⟩

/-- `Macro.is_holding` (macro.py:220-222). -/
def isHolding (l : TriggerLatches) : Bool :=
  !l.releaseSet

/-- `Macro.press_trigger` (macro.py:268-279): a no-op while already
holding, otherwise clears the release latch and sets the press latch. -/
def pressTrigger (l : TriggerLatches) : TriggerLatches :=
  if isHolding l then l else ⟨true, false⟩

/-- `Macro.release_trigger` (macro.py:281-287). -/
def releaseTrigger (_l : TriggerLatches) : TriggerLatches :=
  ⟨false, true⟩

inductive TriggerOp where
  | press
  | release
  deriving DecidableEq, Repr

def applyTriggerOp (l : TriggerLatches) : TriggerOp → TriggerLatches
  | .press => pressTrigger l
  | .release => releaseTrigger l

def applyTriggerOps (ops : List TriggerOp) (l : TriggerLatches) :
    TriggerLatches :=
  ops.foldl applyTriggerOp l

/-- The two latches are complementary: exactly one is set. -/
def complementary (l : TriggerLatches) : Prop :=
  l.pressSet = !l.releaseSet

/-! ## C8: the key handler (`key_handler.py`) and the output registry

`global_uinputs.write` of `inputremapper/injection/global_uinputs.py` is
not under `src/` (only an older `keymapper` variant without `write` is);
it is modelled from the spec. -/

/-- The `exceptions.Error` subclasses the spec names for a failing device
write: device unavailable, or incompatible code. -/
inductive UinputError where
  | uinputNotAvailable
  | eventNotHandled
  deriving DecidableEq, Repr

/-- A named virtual output device, reduced to what `write` consults:
which `(type, code, value)` tuples it can accept. -/
structure VirtualDevice where
  canEmit : ℕ × ℕ × ℤ → Bool

/-- The output registry: named virtual devices. -/
def OutputRegistry : Type :=
  String → Option VirtualDevice

/-- Modelled from the spec: `GlobalUInputs.write(event, targetName)` of
`inputremapper/injection/global_uinputs.py` is not under `src/`.  Spec §6
and §7: the write fails (an `exceptions.Error`) when the named device is
unavailable or cannot accept the event; otherwise it succeeds. -/
def globalUinputsWrite (registry : OutputRegistry)
    (eventTuple : ℕ × ℕ × ℤ) (target : String) : Except UinputError Unit :=
  match registry target with
  | none => .error .uinputNotAvailable
  | some dev =>
      if dev.canEmit eventTuple then .ok () else .error .eventNotHandled

/-- `KeyHandler.notify` (key_handler.py:58-68): writes
`(*self._maps_to, event.value)` to the target device; on success sets the
`_active` latch and returns `True`, on an `exceptions.Error` returns
`False`.  Result: (returned bool, new `_active` latch). -/
def keyHandlerNotify (registry : OutputRegistry) (mapsTo : ℕ × ℕ)
    (targetUinput : String) (active : Bool) (event : InputEvent) :
    Bool × Bool :=
  let eventTuple := (mapsTo.1, mapsTo.2, event.value)
  match globalUinputsWrite registry eventTuple targetUinput with
  | .ok _ => (true, decide (event.value ≠ 0))
  | .error _ => (false, active)

/-! ## C4: `set(name, value)` and variable resolution (`macros/macro.py`)

The shared variable store maps names to arbitrary Python values; a stored
value can itself be a `Variable` instance (which is exactly what the bug
in `add_set` produces). -/

/-- A runtime Python value as far as the variable store is concerned. -/
inductive PyVal where
  | int (n : ℤ)
  | str (s : String)
  | varRef (name : String)
  | pyNone
  deriving DecidableEq, Repr

/-- The process-wide shared variable store (`macro_variables`);
`SharedDict.get` returns `None` for a missing name, so a total function
into `PyVal` (default `pyNone`) models it. -/
def VarStore : Type :=
  String → PyVal

/-- A compile-time macro parameter: a literal, or a `Variable` instance
parsed from `$name`. -/
inductive MacroParam where
  | lit (v : PyVal)
  | varArg (name : String)
  deriving DecidableEq, Repr

/-- `Variable.resolve` (macro.py:67-69): a plain store lookup. -/
def variableResolve (name : String) (store : VarStore) : PyVal :=
  store name

/-- `_resolve` without `allowed_types` (macro.py:140-154): a `Variable`
argument is looked up in the store, anything else is returned as is. -/
def pyResolve (arg : MacroParam) (store : VarStore) : PyVal :=
  match arg with
  | .varArg n => variableResolve n store
  | .lit v => v

/-- The Python object an argument denotes when stored into a dict: a
`Variable` instance stays a `Variable` instance. -/
def MacroParam.asStored : MacroParam → PyVal
  | .lit v => v
  | .varArg n => .varRef n

/-- The task appended by `Macro.add_set` (macro.py:496-506): it computes
`resolved_value = _resolve(value)` (used only for the debug log) and then
executes `macro_variables[variable] = value` — storing the **unresolved**
argument. -/
def addSetTask (varName : String) (value : MacroParam) (store : VarStore) :
    VarStore :=
  fun n => if n = varName then value.asStored else store n

/-- What the spec (and the source's own comment and debug log) say the
task should store: the value resolved at execution time. -/
def addSetTaskSpec (varName : String) (value : MacroParam)
    (store : VarStore) : VarStore :=
  fun n => if n = varName then pyResolve value store else store n

/-! ## C2: the event reader (`event_reader.py`) -/

/-- `copy_event` (event_reader.py:29-36): rebuilds the event from its
`type`/`code`/`value` fields (an `evdev.InputEvent` carries no action
tag). -/
def copyEvent (e : InputEvent) : InputEvent :=
  { type := e.type, code := e.code, value := e.value, action := none }

/-- The observable outcome of one `EventReader.handle` call: which
listeners were scheduled, which handler callbacks were invoked, and
whether the event was forwarded to the pass-through output device. -/
structure HandleOut (Λ κ : Type) where
  notifiedListeners : List Λ
  invokedHandlers : List κ
  forwarded : Option InputEvent

/-- `EventReader.send_to_listeners` (event_reader.py:95-120), restricted
to which listeners get the event scheduled: miscellaneous/sync events are
dropped before any dispatch, otherwise a snapshot of the listener set is
iterated. -/
def sendToListeners (Λ : Type) (listeners : List Λ) (event : InputEvent) :
    List Λ :=
  if event.type = EV_MSC then []
  else if event.type = EV_SYN then []
  else listeners

/-- `EventReader.send_to_handlers` (event_reader.py:71-93): returns
whether any callback consumed the event, together with the callbacks that
were invoked.  `callbacks` is `context.callbacks` keyed by
`(type, code)`; `run` gives each callback's result on the copied event. -/
def sendToHandlers (κ : Type) (callbacks : ℕ × ℕ → List κ)
    (run : κ → InputEvent → Bool) (event : InputEvent) :
    Bool × List κ :=
  if event.type = EV_MSC then (false, [])
  else if event.type = EV_SYN then (false, [])
  else
    let invoked := callbacks (event.type, event.code)
    ((invoked.map (fun c => run c (copyEvent event))).contains true, invoked)

/-- `EventReader.handle` (event_reader.py:129-140): drop key autorepeat,
notify listeners, notify handlers, and forward the event unchanged iff no
handler consumed it. -/
def eventReaderHandle (Λ κ : Type) (listeners : List Λ)
    (callbacks : ℕ × ℕ → List κ) (run : κ → InputEvent → Bool)
    (event : InputEvent) : HandleOut Λ κ :=
  if event.type = EV_KEY ∧ event.value = 2 then ⟨[], [], none⟩
  else
    let ls := sendToListeners Λ listeners event
    let hs := sendToHandlers κ callbacks run event
    ⟨ls, hs.2, if hs.1 then none else some event⟩

/-! ## C3: the macro task language and `hold(childMacro)` (`macros/macro.py`)

A macro is a compiled ordered task list (`Macro.tasks`); `Macro.run`
executes the tasks sequentially, each writing output events through the
supplied handler.  The embedding captures each task by the sequence of
`(type, code, value)` writes it performs; the keystroke pauses write
nothing.  The deterministic, run-to-completion tasks of the language are
embedded; latch-waiting tasks would suspend, not emit. -/

mutual

inductive MacroTask where
  | key (code : ℕ)
  | ev (ty : ℕ) (code : ℕ) (value : ℤ)
  | wait (ms : ℕ)
  | modify (code : ℕ) (child : MacroProg)
  | rep (n : ℕ) (child : MacroProg)

inductive MacroProg where
  | nil
  | cons (t : MacroTask) (ts : MacroProg)

end

/-- One event written through the `handler` function: (type, code, value). -/
abbrev Emission := ℕ × ℕ × ℤ

mutual

/-- The writes performed by one compiled task:
`add_key` (macro.py:390-404): press, pause, release, pause;
`add_event` (macro.py:406-439): one raw write;
`add_wait` (macro.py:487-494): no write;
`add_modify` (macro.py:339-370): modifier press, child run to completion,
modifier release (paced);
`add_repeat` (macro.py:372-388): the child run to completion n times. -/
def runTask : MacroTask → List Emission
  | .key c => [(EV_KEY, c, 1), (EV_KEY, c, 0)]
  | .ev t c v => [(t, c, v)]
  | .wait _ => []
  | .modify c child => (EV_KEY, c, 1) :: (runProg child ++ [(EV_KEY, c, 0)])
  | .rep n child => (List.replicate n (runProg child)).flatten

/-- `Macro.run` (macro.py:238-266): the tasks run sequentially. -/
def runProg : MacroProg → List Emission
  | .nil => []
  | .cons t ts => runTask t ++ runProg ts

end

mutual

/-- The key codes a task adds to `capabilities[EV_KEY]` (the keys the
macro "touches"), child macros aggregated as in `get_capabilities`
(macro.py:224-236). -/
def taskKeys : MacroTask → List ℕ
  | .key c => [c]
  | .ev t c _ => if t = EV_KEY then [c] else []
  | .wait _ => []
  | .modify c child => c :: progKeys child
  | .rep _ child => progKeys child

def progKeys : MacroProg → List ℕ
  | .nil => []
  | .cons t ts => taskKeys t ++ progKeys ts

end

mutual

/-- Whether a task tree is free of raw `event(EV_KEY, …)` emissions
(`e(…)` writes a single unpaired event; every other task emits balanced
press/release pairs). -/
def taskNoRawKey : MacroTask → Bool
  | .key _ => true
  | .ev t _ _ => decide (t ≠ EV_KEY)
  | .wait _ => true
  | .modify _ child => progNoRawKey child
  | .rep _ child => progNoRawKey child

def progNoRawKey : MacroProg → Bool
  | .nil => true
  | .cons t ts => taskNoRawKey t && progNoRawKey ts

end

/-- The loop of the task appended by `add_hold` for a macro target
(macro.py:328-337): `while self.is_holding(): await macro.run(handler)` —
with `is_holding` observed true exactly `n` times, the child macro runs
to completion `n` times, never interrupted mid-repetition. -/
def holdRun (child : MacroProg) : ℕ → List Emission
  | 0 => []
  | n + 1 => runProg child ++ holdRun child n

/-- Presses of key `c` in an emission sequence (EV_KEY, value 1). -/
def pressCount (c : ℕ) (l : List Emission) : ℕ :=
  l.count (EV_KEY, c, 1)

/-- Releases of key `c` in an emission sequence (EV_KEY, value 0). -/
def releaseCount (c : ℕ) (l : List Emission) : ℕ :=
  l.count (EV_KEY, c, 0)

/-! ## C1 / C10: hierarchy ordering (`mapping_parser.py`)

`_order_combinations` (mapping_parser.py:251-277) and
`ranges_with_constant_length` (mapping_parser.py:280-306), generic over
the element type of a combination.  A combination is the ordered event
list of an `EventCombination`; `list.sort` is Python's stable sort, which
`List.insertionSort` (also stable) models observationally exactly.  The
`MappingParsingError` raised by `ranges_with_constant_length` on an
unordered list makes the functions return `Option`. -/

section Hierarchy

variable {α : Type*} [DecidableEq α]

/-- `combinations.sort(key=len)` (mapping_parser.py:269). -/
def sortByLength (cs : List (List α)) : List (List α) :=
  List.insertionSort (fun a b => a.length ≤ b.length) cs

/-- The loop body state machine of `ranges_with_constant_length`
(mapping_parser.py:289-305): `n` is `len(x)`, the remaining elements are
walked with the running `idx`, `start_idx` and `last_len`; the two `yield`
statements become emitted pairs and the raise on an unordered list becomes
`none`.  (Python's `idx - start_idx` cannot be negative when the guard
`1 < idx - start_idx` is consulted, so truncated subtraction agrees.) -/
def rwclAux (n : ℕ) : List (List α) → ℕ → ℕ → ℕ → Option (List (ℕ × ℕ))
  | [], _, _, _ => some []
  | y :: rest, idx, startIdx, lastLen =>
      if y.length < lastLen then none
      else
        let y1 : List (ℕ × ℕ) :=
          if lastLen < y.length ∧ 1 < idx - startIdx then [(startIdx, idx)]
          else []
        let y2 : List (ℕ × ℕ) :=
          if y.length = lastLen ∧ idx + 1 = n then [(startIdx, idx + 1)]
          else []
        let startIdx2 := if lastLen < y.length then idx else startIdx
        (rwclAux n rest (idx + 1) startIdx2 y.length).map
          (fun out => y1 ++ y2 ++ out)

/-- `ranges_with_constant_length` (mapping_parser.py:280-306), eagerly
collected (the caller iterates the generator over an unchanging snapshot
copy, so eager collection is equivalent). -/
def rangesWithConstantLength (x : List (List α)) : Option (List (ℕ × ℕ)) :=
  rwclAux x.length x 0 0 0

/-- `sub_list.sort(key=lambda x: x.index(common_event))`
(mapping_parser.py:273). -/
def sortByIndexOf (e : α) (l : List (List α)) : List (List α) :=
  List.insertionSort (fun a b => a.indexOf e ≤ b.indexOf e) l

/-- One iteration of the slice-assignment loop (mapping_parser.py:271-274):
`sub_list = combinations[start:end]; sub_list.sort(key=…);
combinations[start:end] = sub_list`. -/
def sortSliceByIndex (e : α) (l : List (List α)) (s t : ℕ) :
    List (List α) :=
  l.take s ++ sortByIndexOf e ((l.drop s).take (t - s)) ++ l.drop t

/-- The whole slice-assignment loop over the yielded ranges. -/
def applyRanges (e : α) (rs : List (ℕ × ℕ)) (l : List (List α)) :
    List (List α) :=
  rs.foldl (fun acc r => sortSliceByIndex e acc r.1 r.2) l

/-- `_order_combinations` (mapping_parser.py:251-277): sort by length,
sort each constant-length range by the index of the common event,
reverse.  `none` models the `MappingParsingError` that
`ranges_with_constant_length` could raise. -/
def orderCombinations (cs : List (List α)) (e : α) :
    Option (List (List α)) :=
  let sortedCs := sortByLength cs
  (rangesWithConstantLength sortedCs).map
    (fun rs => (applyRanges e rs sortedCs).reverse)

/-- Decomposition of a list into its maximal runs of constant element
length (a proof device; the source works with index ranges instead). -/
def lenRuns : List (List α) → List (List (List α))
  | [] => []
  | a :: rest =>
      (a :: rest.takeWhile (fun b => b.length = a.length)) ::
        lenRuns (rest.dropWhile (fun b => b.length = a.length))
  termination_by l => l.length
  decreasing_by
    simp only [List.length_cons]
    exact Nat.lt_succ_of_le ((List.dropWhile_sublist _).length_le)

/-- The index ranges of a run decomposition starting at offset `i`,
keeping only runs of two or more elements. -/
def runRanges : ℕ → List (List (List α)) → List (ℕ × ℕ)
  | _, [] => []
  | i, r :: rs =>
      (if 2 ≤ r.length then [(i, i + r.length)] else []) ++
        runRanges (i + r.length) rs

/-- `RunsFrom L R`: `R` is a list of non-empty runs, each of constant
combination length, with lengths strictly increasing and all above `L`. -/
inductive RunsFrom : ℕ → List (List (List α)) → Prop
  | nil (L : ℕ) : RunsFrom L []
  | cons (L ℓ : ℕ) (r : List (List α)) (rs : List (List (List α)))
      (hL : L < ℓ) (hne : r ≠ []) (hlen : ∀ c ∈ r, c.length = ℓ)
      (hrest : RunsFrom ℓ rs) : RunsFrom L (r :: rs)

/-- The closed form of `rwclAux` on a well-formed remainder (a proof
device): `k` is the unconsumed tail of the run in progress (which began
at index `t`, the current `last_len` being its element length) and `R`
the runs after it; `j` is the current index. -/
def g1Out (R : List (List (List α))) (k : List (List α)) (j t : ℕ) :
    List (ℕ × ℕ) :=
  match R with
  | [] => if k.isEmpty then [] else [(t, j + k.length)]
  | _ :: _ =>
      (if 2 ≤ j + k.length - t then [(t, j + k.length)] else []) ++
        runRanges (j + k.length) R

/-- The ordering `_order_combinations` establishes before the final
reversal: shorter first; among equal lengths, smaller index of the
common event first. -/
def hierRel (e : α) (a b : List α) : Prop :=
  a.length < b.length ∨ (a.length = b.length ∧ a.indexOf e ≤ b.indexOf e)

end Hierarchy

/-! ## C9: the mapping parser (`mapping_parser.py`)

`parse_mappings` (mapping_parser.py:77-123), `_get_output_handler`
(161-200), `_create_event_pipeline` (126-158) and
`_create_hierarchy_handlers` (210-248) are under `src/`; the `Mapping`
model, the handler base class and the concrete handler classes other than
`KeyHandler`/`AbsToBtnHandler` are not, so the handler behaviours
(`needs_wrapping`, `wrap_with`, `needs_ranking`, `rank_by`) are an
abstract interface, and `Mapping` is the plain record the spec describes.
The unbounded recursion of `_create_event_pipeline` is modelled with
fuel. -/

/-- Modelled from the spec: `DISABLE_CODE` of
`configs/system_mapping.py` (not under `src/`), the distinguished output
code of a "disabled" mapping. -/
def DISABLE_CODE : ℤ := -1

/-- Modelled from the spec: `DISABLE_NAME` of
`configs/system_mapping.py` (not under `src/`). -/
def DISABLE_NAME : String := "disabled"

/-- `HandlerEnums` (`mapping_handler.py`, declaration mirrored from its
use in mapping_parser.py:58-74). -/
inductive HandlerEnum where
  | abs2btn
  | rel2btn
  | macroOut
  | key
  | btn2rel
  | rel2rel
  | abs2rel
  | btn2abs
  | rel2abs
  | abs2abs
  | combination
  | hierarchy
  | axisswitch
  | disable
  deriving DecidableEq, Repr

/-- `mapping_handler_classes` (mapping_parser.py:58-74): which enums map
to an actual constructor; the `None` entries raise `NotImplementedError`
when selected (mapping_parser.py:83-86, 139-142). -/
def implementedEnum : HandlerEnum → Bool
  | .btn2rel => false
  | .rel2rel => false
  | .btn2abs => false
  | .rel2abs => false
  | .abs2abs => false
  | _ => true

/-- The mapping record as the core consumes it (spec §3; the pydantic
`Mapping` class of `configs/mapping.py` is not under `src/`). -/
structure PMapping where
  output_code : Option ℤ
  output_symbol : Option String
  output_type : Option ℕ
  event_combination : List InputEvent
  deriving DecidableEq, Repr

/-- The Python exceptions `parse_mappings` can raise, plus the fuel
marker standing for a non-terminating `_create_event_pipeline`
recursion. -/
inductive ParseErr where
  | mappingParsingError
  | notImplemented
  | fuelExhausted
  deriving DecidableEq, Repr

/-- `_maps_axis` (mapping_parser.py:203-207): the first event of the
combination with value 0. -/
def mapsAxis (combination : List InputEvent) : Option InputEvent :=
  combination.find? (fun e => e.value = 0)

/-- Python truthiness of `mapping.output_symbol` (an `Optional[str]`):
`None` and the empty string are falsy. -/
def symTruthy : Option String → Bool
  | some s => decide (s ≠ "")
  | none => false

/-- `_get_output_handler` (mapping_parser.py:161-200).  `isMacroFn`
stands for `is_this_a_macro` (`macros/parse.py`, not under `src/`). -/
def getOutputHandler (isMacroFn : String → Bool) (m : PMapping) :
    Except ParseErr HandlerEnum :=
  if m.output_code = some DISABLE_CODE ∨ m.output_symbol = some DISABLE_NAME
  then .ok .disable
  else if symTruthy m.output_symbol then
    if isMacroFn (m.output_symbol.getD "") then .ok .macroOut else .ok .key
  else if m.output_type = some EV_KEY then .ok .key
  else
    match mapsAxis m.event_combination with
    | none => .error .mappingParsingError
    | some inputEvent =>
        if m.output_type = some EV_REL then
          if inputEvent.type = EV_KEY then .ok .btn2rel
          else if inputEvent.type = EV_REL then .ok .rel2rel
          else if inputEvent.type = EV_ABS then .ok .abs2rel
          else .error .mappingParsingError
        else if m.output_type = some EV_ABS then
          if inputEvent.type = EV_KEY then .ok .btn2abs
          else if inputEvent.type = EV_REL then .ok .rel2abs
          else if inputEvent.type = EV_ABS then .ok .abs2abs
          else .error .mappingParsingError
        else .error .mappingParsingError

/-- A mapping handler as the parser manipulates it: constructed from an
enum, a combination and a mapping, with the explicit per-handler occluded
event set the spec describes (§9), and an optional wrapped sub-handler;
or a hierarchy handler keyed on its shared event
(mapping_parser.py:242). -/
inductive PHandler where
  | node (enum : HandlerEnum) (combination : List InputEvent)
      (mapping : Option PMapping) (occluded : List InputEvent)
      (sub : Option PHandler)
  | hier (subs : List PHandler) (event : InputEvent)
      (occluded : List InputEvent)

/-- `handler.input_events`: the handler's events minus the occluded ones
(spec §9: occlusion is an explicit per-handler exclusion set). -/
def PHandler.inputEvents : PHandler → List InputEvent
  | .node _ comb _ occ _ => comb.filter (fun e => decide (e ∉ occ))
  | .hier _ ev occ => if ev ∈ occ then [] else [ev]

/-- `handler.set_occluded_input_event(event)`. -/
def PHandler.occlude (h : PHandler) (e : InputEvent) : PHandler :=
  match h with
  | .node en c m occ s => .node en c m (occ ++ [e]) s
  | .hier subs ev occ => .hier subs ev (occ ++ [e])

def PHandler.occludeAll (h : PHandler) (es : List InputEvent) : PHandler :=
  es.foldl PHandler.occlude h

/-- `handler.mapping` as passed to a wrapping constructor
(mapping_parser.py:144). -/
def PHandler.mappingOf : PHandler → Option PMapping
  | .node _ _ m _ _ => m
  | .hier _ _ _ => none

/-- Modelled from the spec: the polymorphic handler capabilities
`needs_wrapping` / `wrap_with` / `needs_ranking` / `rank_by` (spec §3,
§9; `mapping_handler.py` and the concrete handler classes are not under
`src/`), kept fully abstract. -/
structure HandlerIface where
  needsWrapping : PHandler → Bool
  wrapWith : PHandler → List (List InputEvent × HandlerEnum)
  needsRanking : PHandler → Bool
  rankBy : PHandler → Option (List InputEvent)

mutual

/-- `_create_event_pipeline` (mapping_parser.py:126-158).  All wrapping
constructors receive the same (aliased, occlusion-mutated) wrapped
handler, so each sees its final occlusion state `h2`; the final
`if handler.input_events` append is mapping_parser.py:153-156. -/
def createEventPipeline (iface : HandlerIface) :
    ℕ → PHandler → Bool → Except ParseErr (List PHandler)
  | 0, _, _ => .error .fuelExhausted
  | fuel + 1, h, ignoreRanking =>
      if !iface.needsWrapping h || (iface.needsRanking h && !ignoreRanking)
      then .ok [h]
      else
        let h2 := h.occludeAll ((iface.wrapWith h).map Prod.fst).flatten
        match wrapItems iface fuel (iface.wrapWith h) h2 with
        | .error e => .error e
        | .ok hs =>
            .ok (hs ++ (if h2.inputEvents.isEmpty then [] else [h2]))
  termination_by fuel _ _ => (fuel, 0)

/-- The loop over `handler.wrap_with().items()`
(mapping_parser.py:137-151). -/
def wrapItems (iface : HandlerIface) (fuel : ℕ) :
    List (List InputEvent × HandlerEnum) → PHandler →
    Except ParseErr (List PHandler)
  | [], _ => .ok []
  | (comb, enum) :: rest, h2 =>
      if implementedEnum enum then
        match
          createEventPipeline iface fuel
            (.node enum comb h2.mappingOf [] (some h2)) false
        with
        | .error e => .error e
        | .ok out =>
            match wrapItems iface fuel rest h2 with
            | .error e => .error e
            | .ok out2 => .ok (out ++ out2)
      else .error .notImplemented
  termination_by items _ => (fuel, items.length + 1)

end

/-- The first loop of `parse_mappings` (mapping_parser.py:79-89):
classify each mapping, construct its output handler, wrap it. -/
def parseHandlers (iface : HandlerIface) (isMacroFn : String → Bool)
    (fuel : ℕ) : List PMapping → Except ParseErr (List PHandler)
  | [] => .ok []
  | m :: ms =>
      match getOutputHandler isMacroFn m with
      | .error e => .error e
      | .ok enum =>
          if implementedEnum enum then
            match
              createEventPipeline iface fuel
                (.node enum m.event_combination (some m) [] none) false
            with
            | .error e => .error e
            | .ok hs =>
                match parseHandlers iface isMacroFn fuel ms with
                | .error e => .error e
                | .ok rest => .ok (hs ++ rest)
          else .error .notImplemented

/-- Modelled from the spec: `EventCombination` equality (spec §3;
`event_combination.py` is not under `src/`): two combinations are equal
iff they contain the same set of constituent events and share the same
terminal (last) element. -/
def combEq (a b : List InputEvent) : Bool :=
  a.all (fun e => e ∈ b) && b.all (fun e => e ∈ a) &&
    decide (a.getLast? = b.getLast?)

/-- `need_ranking[combination] = handler` (mapping_parser.py:101): a dict
update, keeping the original key and position on overwrite. -/
def dictInsert (d : List (List InputEvent × PHandler))
    (k : List InputEvent) (v : PHandler) :
    List (List InputEvent × PHandler) :=
  if d.any (fun kv => combEq kv.1 k) then
    d.map (fun kv => if combEq kv.1 k then (kv.1, v) else kv)
  else d ++ [(k, v)]

/-- The ranking-extraction loop of `parse_mappings`
(mapping_parser.py:91-102): handlers that need ranking are removed and
keyed by their `rank_by` combination; a falsy (`None` or empty)
combination raises `MappingParsingError`. -/
def extractRanking (iface : HandlerIface) :
    List PHandler → List (List InputEvent × PHandler) →
    Except ParseErr (List PHandler × List (List InputEvent × PHandler))
  | [], acc => .ok ([], acc)
  | h :: hs, acc =>
      if iface.needsRanking h then
        match iface.rankBy h with
        | none => .error .mappingParsingError
        | some [] => .error .mappingParsingError
        | some comb => extractRanking iface hs (dictInsert acc comb h)
      else
        match extractRanking iface hs acc with
        | .error e => .error e
        | .ok (ks, d) => .ok (h :: ks, d)

/-- The `events` set of `_create_hierarchy_handlers`
(mapping_parser.py:218-221), in first-appearance order (Python set
iteration order is unspecified). -/
def gatherEvents (ks : List (List InputEvent)) : List InputEvent :=
  ks.flatten.dedup

/-- A pending element of the `sorted_handlers` set: either the handler at
a dict index (added directly), or a hierarchy of the handlers at the
given indices keyed on an event.  Indices model Python object identity:
occlusions applied later in the loop are visible through every
reference. -/
inductive HierOut where
  | direct (idx : ℕ)
  | hierOf (subIdxs : List ℕ) (event : InputEvent)
  deriving DecidableEq, Repr

structure HierState where
  occl : List (ℕ × InputEvent)
  outs : List HierOut

/-- Index of the dict entry with a key equal (as a combination) to `c`. -/
def keyIdx (ks : List (List InputEvent)) (c : List InputEvent) : ℕ :=
  (ks.findIdx? (fun k => combEq k c)).getD 0

/-- The per-event loop of `_create_hierarchy_handlers`
(mapping_parser.py:224-246): one handler containing the event is added
directly (the set dedups repeated adds); several are ordered by
`_order_combinations` — whose possible `MappingParsingError` propagates —
and wrapped in a hierarchy handler, occluding the shared event on every
sub-handler. -/
def hierLoop (ks : List (List InputEvent)) :
    List InputEvent → HierState → Except ParseErr HierState
  | [], st => .ok st
  | e :: es, st =>
      let idxs := (List.range ks.length).filter (fun i => e ∈ ks.getD i [])
      match idxs with
      | [i] =>
          let outs := if st.outs.contains (.direct i) then st.outs
            else st.outs ++ [.direct i]
          hierLoop ks es ⟨st.occl, outs⟩
      | _ =>
          match orderCombinations (idxs.map (fun i => ks.getD i [])) e with
          | none => .error .mappingParsingError
          | some sortedCombos =>
              let subIdxs := sortedCombos.map (keyIdx ks)
              hierLoop ks es
                ⟨st.occl ++ subIdxs.map (fun i => (i, e)),
                  st.outs ++ [.hierOf subIdxs e]⟩

/-- Apply the accumulated occlusion mutations to the dict values. -/
def applyOccl (d : List (List InputEvent × PHandler))
    (occl : List (ℕ × InputEvent)) : List (List InputEvent × PHandler) :=
  occl.foldl
    (fun acc p =>
      match acc.get? p.1 with
      | none => acc
      | some kv => acc.set p.1 (kv.1, kv.2.occlude p.2))
    d

def dummyHandler : PHandler :=
  .node .disable [] none [] none

/-- Materialise the `sorted_handlers` set from the final dict state. -/
def resolveOuts (entries : List (List InputEvent × PHandler))
    (outs : List HierOut) : List PHandler :=
  outs.map fun o =>
    match o with
    | .direct i => ((entries.get? i).map Prod.snd).getD dummyHandler
    | .hierOf subIdxs e =>
        .hier
          (subIdxs.map
            (fun i => ((entries.get? i).map Prod.snd).getD dummyHandler))
          e []

/-- `_create_hierarchy_handlers` (mapping_parser.py:210-248). -/
def createHierarchyHandlers (d : List (List InputEvent × PHandler)) :
    Except ParseErr (List PHandler) :=
  match hierLoop (d.map Prod.fst) (gatherEvents (d.map Prod.fst)) ⟨[], []⟩
  with
  | .error e => .error e
  | .ok st => .ok (resolveOuts (applyOccl d st.occl) st.outs)

/-- The re-wrapping of the ranked handlers (mapping_parser.py:104-106),
with `ignore_ranking=True`. -/
def repipe (iface : HandlerIface) (fuel : ℕ) :
    List PHandler → Except ParseErr (List PHandler)
  | [] => .ok []
  | h :: hs =>
      match createEventPipeline iface fuel h true with
      | .error e => .error e
      | .ok out =>
          match repipe iface fuel hs with
          | .error e => .error e
          | .ok out2 => .ok (out ++ out2)

/-- The event pipelines: an insertion-ordered dict from input event to
its ordered handler list. -/
abbrev Pipelines : Type :=
  List (InputEvent × List PHandler)

def pipelineAdd (p : Pipelines) (e : InputEvent) (h : PHandler) :
    Pipelines :=
  if p.any (fun q => q.1 = e) then
    p.map (fun q => if q.1 = e then (q.1, q.2 ++ [h]) else q)
  else p ++ [(e, [h])]

/-- The final assembly loop of `parse_mappings`
(mapping_parser.py:108-123): handlers without remaining input events are
dropped; the rest are indexed under each of their visible input events in
discovery order. -/
def assemble (hs : List PHandler) : Pipelines :=
  hs.foldl
    (fun p h =>
      if h.inputEvents.isEmpty then p
      else h.inputEvents.foldl (fun p2 e => pipelineAdd p2 e h) p)
    []

/-- `parse_mappings` (mapping_parser.py:77-123). -/
def parseMappings (iface : HandlerIface) (isMacroFn : String → Bool)
    (fuel : ℕ) (preset : List PMapping) : Except ParseErr Pipelines :=
  match parseHandlers iface isMacroFn fuel preset with
  | .error e => .error e
  | .ok handlers =>
      match extractRanking iface handlers [] with
      | .error e => .error e
      | .ok (keep, needRanking) =>
          match createHierarchyHandlers needRanking with
          | .error e => .error e
          | .ok ranked =>
              match repipe iface fuel ranked with
              | .error e => .error e
              | .ok repiped => .ok (assemble (keep ++ repiped))

/-! # Theorems -/

/-! ## C7: the trigger latches stay complementary -/

lemma complementary_applyTriggerOp (l : TriggerLatches)
    (h : complementary l) (op : TriggerOp) :
    complementary (applyTriggerOp l op) := by
  cases op with
  | press =>
    simp only [applyTriggerOp, pressTrigger]
    split
    · exact h
    · rfl
  | release =>
    rfl

lemma complementary_applyTriggerOps (ops : List TriggerOp)
    (l : TriggerLatches) (h : complementary l) :
    complementary (applyTriggerOps ops l) := by
  induction ops generalizing l with
  | nil => exact h
  | cons op ops ih =>
    exact ih _ (complementary_applyTriggerOp l h op)

/-- **C7**: for every Macro instance, after construction
(`Macro.__init__`) and after every sequence of `press_trigger` /
`release_trigger` calls (which is exactly what every child macro also
receives, propagated unchanged), the trigger-press latch and the
trigger-release latch are complementary: exactly one of them is set. -/
theorem C7_trigger_latches_complementary (ops : List TriggerOp) :
    complementary (applyTriggerOps ops initLatches) :=
  complementary_applyTriggerOps ops initLatches rfl

/-! ## C8: the key handler returns false instead of throwing -/

/-- **C8**: `KeyHandler.notify` returns `True` exactly when the device
write of the mapped output code with the incoming event's value succeeds,
and returns `False` (rather than letting the `exceptions.Error` escape)
exactly when the write fails — device unavailable or incompatible code.
The model is a total function into `Bool`: no exception reaches the
caller. -/
theorem C8_key_handler_never_throws (registry : OutputRegistry)
    (mapsTo : ℕ × ℕ) (target : String) (active : Bool)
    (event : InputEvent) :
    ((keyHandlerNotify registry mapsTo target active event).1 = true ↔
      globalUinputsWrite registry (mapsTo.1, mapsTo.2, event.value) target =
        .ok ()) ∧
    ((keyHandlerNotify registry mapsTo target active event).1 = false ↔
      ∃ err, globalUinputsWrite registry (mapsTo.1, mapsTo.2, event.value)
          target = .error err) := by
  cases hw : globalUinputsWrite registry (mapsTo.1, mapsTo.2, event.value)
      target with
  | ok u =>
    cases u
    simp [keyHandlerNotify, hw]
  | error e =>
    simp [keyHandlerNotify, hw]

/-! ## C4: `add_set` stores the unresolved value (code bug) -/

/-- **C4** (code bug): with the store holding `b = 5`, executing the
`set(a, $b)` task (`Macro.add_set`) and then resolving `$a` yields the
stored `Variable` reference to `b` — not `5`, the value of `b` at
execution time, which is what the spec, the function's own comment
(`# can also copy with set(a, $b)`) and its debug log promise, and what
storing `resolved_value` (modelled by `addSetTaskSpec`) would produce. -/
theorem C4_add_set_stores_unresolved :
    pyResolve (.varArg "a")
        (addSetTask "a" (.varArg "b")
          (fun n => if n = "b" then .int 5 else .pyNone)) = .varRef "b" ∧
    pyResolve (.varArg "b") (fun n => if n = "b" then .int 5 else .pyNone) =
      .int 5 ∧
    addSetTaskSpec "a" (.varArg "b")
        (fun n => if n = "b" then .int 5 else .pyNone) "a" = .int 5 := by
  refine ⟨?_, ?_, ?_⟩ <;> decide

/-! ## C2: miscellaneous/sync events are dropped from dispatch but
forwarded -/

/-- **C2** counterexample: `EventReader.handle` of a synchronization
event forwards it to the pass-through output device
(`send_to_handlers` returns `False` for `EV_SYN`/`EV_MSC`, so the
"no handler took care of it" branch forwards), contradicting the claim
that such events are never forwarded. -/
theorem C2_counterexample :
    (eventReaderHandle Unit Unit [] (fun _ => []) (fun _ _ => false)
        ⟨EV_SYN, 0, 0, none⟩).forwarded = some ⟨EV_SYN, 0, 0, none⟩ := by
  rfl

/-- **C2** (amended): for every incoming event of the miscellaneous
(`EV_MSC`) or synchronization (`EV_SYN`) class, `EventReader.handle`
delivers it to no listener and to no handler callback — but, precisely
because no handler consumed it, it **is** forwarded unchanged to the
pass-through output device. -/
theorem C2_msc_syn_not_dispatched_but_forwarded (Λ κ : Type)
    (listeners : List Λ) (callbacks : ℕ × ℕ → List κ)
    (run : κ → InputEvent → Bool) (event : InputEvent)
    (h : event.type = EV_MSC ∨ event.type = EV_SYN) :
    eventReaderHandle Λ κ listeners callbacks run event =
      ⟨[], [], some event⟩ := by
  rcases h with h | h <;>
    simp [eventReaderHandle, sendToListeners, sendToHandlers, h, EV_MSC,
      EV_SYN, EV_KEY]

/-- **C2** witness: the amended theorem applied to a concrete `EV_MSC`
event with a non-empty listener set and a consuming callback. -/
theorem C2_msc_syn_not_dispatched_but_forwarded_witness :
    eventReaderHandle Unit Unit [()] (fun _ => [()]) (fun _ _ => true)
        ⟨EV_MSC, 4, 1, none⟩ = ⟨[], [], some ⟨EV_MSC, 4, 1, none⟩⟩ :=
  C2_msc_syn_not_dispatched_but_forwarded Unit Unit [()] (fun _ => [()])
    (fun _ _ => true) ⟨EV_MSC, 4, 1, none⟩ (Or.inl rfl)

/-! ## C5: the axis-to-button trigger point -/

/-- **C5** counterexample: for the range [0, 255] at configured percent
50 the code's trigger point is `int(191.25) = 191`, not the exact value
`midpoint + halfRange * (percent / 100) = 191.25` the claim states, so
the claimed equality fails (the range is not the special-cased
[-1, 1]). -/
theorem C5_counterexample :
    ¬((0 : ℤ) = -1 ∧ (255 : ℤ) = 1) ∧
      ((triggerPoint 0 255 50 : ℚ) ≠ specTriggerFormula 0 255 50) := by
  refine ⟨by decide, ?_⟩
  norm_num [triggerPoint, pyInt, specTriggerFormula]

/-- **C5** (amended): for a device range of exactly [-1, 1] the trigger
point is 0 regardless of the configured percent; for every other range
it is the truncation toward zero (Python `int()`) of
`midpoint + halfRange * (configuredPercent / 100)`; in particular for
range [0, 255] it is 255 at percent 100 and 0 at percent -100. -/
theorem C5_trigger_point_truncated_formula (mn mx v : ℤ) :
    (mn = -1 ∧ mx = 1 → triggerPoint mn mx v = 0) ∧
    (¬(mn = -1 ∧ mx = 1) →
      triggerPoint mn mx v = pyInt (specTriggerFormula mn mx v)) ∧
    triggerPoint 0 255 100 = 255 ∧ triggerPoint 0 255 (-100) = 0 := by
  refine ⟨fun h => ?_, fun h => ?_, by norm_num [triggerPoint, pyInt],
    by norm_num [triggerPoint, pyInt]⟩
  · simp [triggerPoint, h]
  · simp only [triggerPoint, if_neg h]
    congr 1
    unfold specTriggerFormula
    ring

/-- **C5** witness: the amended theorem applied to the hat-switch range
and to the range [0, 255] at percent 50. -/
theorem C5_trigger_point_truncated_formula_witness :
    triggerPoint (-1) 1 37 = 0 ∧
      triggerPoint 0 255 50 = pyInt (specTriggerFormula 0 255 50) :=
  ⟨(C5_trigger_point_truncated_formula (-1) 1 37).1 ⟨rfl, rfl⟩,
    (C5_trigger_point_truncated_formula 0 255 50).2.1 (by decide)⟩


/-! ## C6: the axis-to-button handler is edge-triggered -/

/-- **C6**: on an event matching the configured input, if the computed
pressed/not-pressed boolean equals the latched `_active` state the event
is consumed (`True`) with no downstream notification and no state
change; only on a state change is the synthesized button event — the
incoming event rewritten to value 1 or 0 with the `as_key` action tag —
forwarded to the wrapped sub-handler, whose result is returned, with the
latch updated to the computed state. -/
theorem C6_abs_to_btn_edge_triggered (config : InputEvent) (active : Bool)
    (subNotify : InputEvent → Bool) (event : InputEvent) (info : AbsInfo)
    (hmatch : (event.type, event.code) = (config.type, config.code)) :
    (absPressed config event info = active →
      absToBtnNotify config active subNotify event info =
        ⟨true, active, none⟩) ∧
    (absPressed config event info ≠ active →
      absToBtnNotify config active subNotify event info =
        ⟨subNotify
            (event.modifyEv
              (if absPressed config event info then 1 else 0) .asKey),
          absPressed config event info,
          some (event.modifyEv
            (if absPressed config event info then 1 else 0) .asKey)⟩) := by
  simp only [absToBtnNotify, absPressed, if_neg (not_not_intro hmatch)]
  by_cases hc : config.value > 0 <;>
    [by_cases hv : event.value > triggerPoint info.min info.max config.value;
      by_cases hv : event.value < triggerPoint info.min info.max config.value]
  all_goals
    simp only [hc, hv, if_true, if_false, InputEvent.modifyEv,
      if_pos, if_neg, not_false_eq_true, not_true_eq_false]
  all_goals
    constructor <;> intro hst <;>
      simp_all [InputEvent.modifyEv]

/-- **C6** witness: the theorem applied to a matching axis event whose
computed state equals the latched state (consumed, nothing forwarded). -/
theorem C6_abs_to_btn_edge_triggered_witness :
    absToBtnNotify ⟨EV_ABS, 0, 10, none⟩ false (fun _ => true)
        ⟨EV_ABS, 0, 5, none⟩ ⟨0, 255⟩ = ⟨true, false, none⟩ :=
  (C6_abs_to_btn_edge_triggered ⟨EV_ABS, 0, 10, none⟩ false (fun _ => true)
      ⟨EV_ABS, 0, 5, none⟩ ⟨0, 255⟩ rfl).1
    (by norm_num [absPressed, triggerPoint, pyInt])

/-! ## C3: `hold(childMacro)` repetitions and balance -/

lemma count_flatten_replicate (a : Emission) (n : ℕ) (l : List Emission) :
    ((List.replicate n l).flatten).count a = n * l.count a := by
  induction n with
  | zero => simp
  | succ n ih =>
    simp [List.replicate_succ, List.count_append, ih, Nat.succ_mul,
      Nat.add_comm]

mutual

lemma taskBalanced (t : MacroTask) (h : taskNoRawKey t = true) (c : ℕ) :
    pressCount c (runTask t) = releaseCount c (runTask t) := by
  cases t with
  | key k =>
    by_cases hk : k = c <;>
      simp [pressCount, releaseCount, runTask, List.count_cons, hk]
  | ev ty k v =>
    have hty : ty ≠ EV_KEY := by simpa [taskNoRawKey] using h
    simp [pressCount, releaseCount, runTask, List.count_cons,
      List.count_nil, hty]
  | wait ms => rfl
  | modify k child =>
    have hc := progBalanced child (by simpa [taskNoRawKey] using h) c
    unfold pressCount releaseCount at hc ⊢
    by_cases hk : k = c <;>
      simp [runTask, List.count_cons, List.count_append, hk, hc]
  | rep n child =>
    have hc := progBalanced child (by simpa [taskNoRawKey] using h) c
    unfold pressCount releaseCount at hc ⊢
    simp [runTask, count_flatten_replicate, hc]

lemma progBalanced (p : MacroProg) (h : progNoRawKey p = true) (c : ℕ) :
    pressCount c (runProg p) = releaseCount c (runProg p) := by
  cases p with
  | nil => rfl
  | cons t ts =>
    have h2 : taskNoRawKey t = true ∧ progNoRawKey ts = true := by
      simpa [progNoRawKey, Bool.and_eq_true] using h
    have hb1 := taskBalanced t h2.1 c
    have hb2 := progBalanced ts h2.2 c
    unfold pressCount releaseCount at hb1 hb2 ⊢
    simp [runProg, List.count_append, hb1, hb2]

end

/-- **C3** counterexample: the claim as stated fails for a child macro
that emits a raw unpaired key press via `event(EV_KEY, 30, 1)`
(`Macro.add_event`): after one completed hold iteration, key code 30 —
which the child macro touches (it is in its capability set) — has one
press and no release. -/
theorem C3_counterexample :
    30 ∈ progKeys (.cons (.ev EV_KEY 30 1) .nil) ∧
    pressCount 30 (holdRun (.cons (.ev EV_KEY 30 1) .nil) 1) = 1 ∧
    releaseCount 30 (holdRun (.cons (.ev EV_KEY 30 1) .nil) 1) = 0 := by
  refine ⟨?_, ?_, ?_⟩ <;>
    simp [progKeys, taskKeys, holdRun, runProg, runTask, pressCount,
      releaseCount, List.count_cons, EV_KEY]

/-- **C3** (amended): a `hold(childMacro)` task held through `n` observed
loop iterations emits exactly `n` complete copies of the child macro's
output — each repetition runs to completion, never interrupted
mid-repetition — and, provided the child macro contains no raw
`event(EV_KEY, …)` task (so each of its tasks emits balanced
press/release pairs), every key code has an equal number of press
(value 1) and release (value 0) events in the total output. -/
theorem C3_hold_complete_reps_and_balanced (child : MacroProg) (n : ℕ)
    (h : progNoRawKey child = true) :
    holdRun child n = (List.replicate n (runProg child)).flatten ∧
    ∀ c, pressCount c (holdRun child n) =
      releaseCount c (holdRun child n) := by
  have hrun : holdRun child n = (List.replicate n (runProg child)).flatten
    := by
    induction n with
    | zero => rfl
    | succ n ih => simp [holdRun, List.replicate_succ, ih]
  refine ⟨hrun, fun c => ?_⟩
  have hb := progBalanced child h c
  unfold pressCount releaseCount at hb ⊢
  rw [hrun, count_flatten_replicate, count_flatten_replicate, hb]

/-- **C3** witness: the amended theorem applied to the child macro
`key(30)` held for two iterations. -/
theorem C3_hold_complete_reps_and_balanced_witness :
    holdRun (.cons (.key 30) .nil) 2 =
      (List.replicate 2 (runProg (.cons (.key 30) .nil))).flatten ∧
    pressCount 30 (holdRun (.cons (.key 30) .nil) 2) =
      releaseCount 30 (holdRun (.cons (.key 30) .nil) 2) :=
  ⟨(C3_hold_complete_reps_and_balanced (.cons (.key 30) .nil) 2
      (by simp [progNoRawKey, taskNoRawKey])).1,
    (C3_hold_complete_reps_and_balanced (.cons (.key 30) .nil) 2
      (by simp [progNoRawKey, taskNoRawKey])).2 30⟩

/-! ## C1 / C10: correctness of `_order_combinations` -/

section HierarchyProofs

variable {α : Type*}

lemma sortByLength_pairwise (cs : List (List α)) :
    List.Pairwise (fun a b : List α => a.length ≤ b.length)
      (sortByLength cs) :=
  @List.sorted_insertionSort (List α) (fun a b => a.length ≤ b.length) _
    ⟨fun a b => Nat.le_total a.length b.length⟩
    ⟨fun _ _ _ hab hbc => Nat.le_trans hab hbc⟩ cs

lemma sortByLength_perm (cs : List (List α)) :
    (sortByLength cs).Perm cs :=
  List.perm_insertionSort _ cs

lemma sortByIndexOf_pairwise [DecidableEq α] (e : α) (l : List (List α)) :
    List.Pairwise (fun a b : List α => a.indexOf e ≤ b.indexOf e)
      (sortByIndexOf e l) :=
  @List.sorted_insertionSort (List α)
    (fun a b => a.indexOf e ≤ b.indexOf e) _
    ⟨fun a b => Nat.le_total (a.indexOf e) (b.indexOf e)⟩
    ⟨fun _ _ _ hab hbc => Nat.le_trans hab hbc⟩ l

lemma sortByIndexOf_perm [DecidableEq α] (e : α) (l : List (List α)) :
    (sortByIndexOf e l).Perm l :=
  List.perm_insertionSort _ l

lemma sortByIndexOf_length [DecidableEq α] (e : α) (l : List (List α)) :
    (sortByIndexOf e l).length = l.length :=
  (sortByIndexOf_perm e l).length_eq

lemma sortByIndexOf_small [DecidableEq α] (e : α) (l : List (List α))
    (h : l.length ≤ 1) : sortByIndexOf e l = l := by
  match l with
  | [] => rfl
  | [a] => rfl
  | a :: b :: l => simp at h

lemma lenRuns_flatten (l : List (List α)) : (lenRuns l).flatten = l := by
  induction l using lenRuns.induct with
  | case1 => rw [lenRuns]; rfl
  | case2 a rest ih =>
    rw [lenRuns]
    simp only [List.flatten_cons, ih]
    rw [List.cons_append, List.takeWhile_append_dropWhile]

lemma mem_dropWhile_len_gt (ℓ : ℕ) (rest : List (List α))
    (hs : List.Pairwise (fun a b : List α => a.length ≤ b.length) rest)
    (hge : ∀ c ∈ rest, ℓ ≤ c.length) :
    ∀ c ∈ rest.dropWhile (fun b => b.length = ℓ), ℓ < c.length := by
  induction rest with
  | nil => intro c hc; simp at hc
  | cons d tl ih =>
    intro c hc
    rw [List.dropWhile_cons] at hc
    by_cases hd : d.length = ℓ
    · rw [if_pos (by simpa using hd)] at hc
      exact ih hs.of_cons (fun x hx => hge x (List.mem_cons_of_mem d hx))
        c hc
    · rw [if_neg (by simpa using hd)] at hc
      have hdℓ : ℓ < d.length :=
        lt_of_le_of_ne (hge d (List.mem_cons_self d tl)) (Ne.symm hd)
      rcases List.mem_cons.mp hc with rfl | hc
      · exact hdℓ
      · exact lt_of_lt_of_le hdℓ (List.rel_of_pairwise_cons hs hc)

lemma lenRuns_runsFrom (l : List (List α)) :
    ∀ L : ℕ, List.Pairwise (fun a b : List α => a.length ≤ b.length) l →
      (∀ c ∈ l, L < c.length) → RunsFrom L (lenRuns l) := by
  induction l using lenRuns.induct with
  | case1 =>
    intro L _ _
    rw [lenRuns]
    exact .nil L
  | case2 a rest ih =>
    intro L hs hgt
    rw [lenRuns]
    refine .cons L a.length _ _ (hgt a (List.mem_cons_self a rest))
      (by simp) ?_ ?_
    · intro c hc
      rcases List.mem_cons.mp hc with rfl | hc
      · rfl
      · have hd := List.mem_takeWhile_imp hc
        exact of_decide_eq_true hd
    · refine ih a.length ?_ ?_
      · exact hs.of_cons.sublist (List.dropWhile_sublist _)
      · exact mem_dropWhile_len_gt a.length rest hs.of_cons
          (fun c hc => List.rel_of_pairwise_cons hs hc)

lemma g1Out_fresh (rs : List (List (List α))) (d : List α)
    (r2 : List (List α)) (j : ℕ) :
    g1Out rs r2 (j + 1) j = runRanges j ((d :: r2) :: rs) := by
  cases rs with
  | nil =>
    simp only [g1Out, runRanges, List.length_cons, List.append_nil]
    by_cases h2 : r2 = []
    · subst h2
      norm_num
    · have hlen : 1 ≤ r2.length := List.length_pos.mpr h2
      rw [if_neg (by simpa [List.isEmpty_iff] using h2),
        if_pos (by omega)]
      have : j + 1 + r2.length = j + (r2.length + 1) := by omega
      rw [this]
  | cons s rs2 =>
    simp only [g1Out, runRanges, List.length_cons]
    have h1 : j + 1 + r2.length - j = r2.length + 1 := by omega
    have h2 : j + 1 + r2.length = j + (r2.length + 1) := by omega
    rw [h1, h2]

lemma rwclAux_spec (n : ℕ) (R : List (List (List α))) (ℓ0 : ℕ)
    (hR : RunsFrom ℓ0 R) :
    ∀ (k : List (List α)) (j t : ℕ), (∀ c ∈ k, c.length = ℓ0) →
      n = j + k.length + (R.map List.length).sum →
      rwclAux n (k ++ R.flatten) j t ℓ0 = some (g1Out R k j t) := by
  induction hR with
  | nil L =>
    intro k
    induction k with
    | nil =>
      intro j t _ _
      simp [rwclAux, g1Out]
    | cons c k2 ihk =>
      intro j t hk hn
      have hcℓ : c.length = L := hk c (List.mem_cons_self c k2)
      simp only [List.map_nil, List.sum_nil, Nat.add_zero,
        List.length_cons] at hn
      have hrec := ihk (j + 1) t
        (fun x hx => hk x (List.mem_cons_of_mem c hx))
        (by simp only [List.map_nil, List.sum_nil]; omega)
      rw [List.cons_append]
      simp only [rwclAux, hcℓ, lt_self_iff_false, false_and, if_false,
        eq_self_iff_true, true_and]
      rw [hrec]
      simp only [Option.map_some', Option.some.injEq, List.nil_append]
      by_cases h2 : k2 = []
      · subst h2
        simp only [List.length_nil] at hn
        rw [if_pos (by omega)]
        simp [g1Out]
      · have hk2len : 1 ≤ k2.length := List.length_pos.mpr h2
        rw [if_neg (by omega)]
        have hk2 : k2.isEmpty = false := by
          simpa [List.isEmpty_iff] using h2
        simp only [g1Out, hk2, List.isEmpty_cons, if_false,
          List.length_cons, List.nil_append]
        have harith : j + 1 + k2.length = j + (k2.length + 1) := by omega
        rw [harith]
  | cons L ℓ2 r rs hL hne hlen hrest ih =>
    intro k
    induction k with
    | nil =>
      intro j t _ hn
      obtain ⟨d, r2, rfl⟩ : ∃ d r2, r = d :: r2 := by
        cases r with
        | nil => exact absurd rfl hne
        | cons d r2 => exact ⟨d, r2, rfl⟩
      have hd : d.length = ℓ2 := hlen d (List.mem_cons_self d r2)
      simp only [List.length_nil, List.map_cons, List.sum_cons,
        List.length_cons, Nat.add_zero] at hn
      have hrec := ih r2 (j + 1) j
        (fun x hx => hlen x (List.mem_cons_of_mem d hx)) (by omega)
      rw [List.nil_append, List.flatten_cons, List.cons_append]
      simp only [rwclAux, hd, if_neg (Nat.lt_asymm hL), hL, true_and,
        false_and, if_false, if_true]
      rw [hrec]
      simp only [Option.map_some', Option.some.injEq, List.append_nil]
      have hne2 : ¬(ℓ2 = L ∧ j + 1 = n) := by
        intro hcontra
        exact absurd hcontra.1 (Nat.ne_of_lt hL).symm
      rw [if_neg hne2]
      rw [g1Out_fresh rs d r2 j]
      simp only [g1Out, List.length_nil, Nat.add_zero, List.nil_append,
        List.append_nil]
      by_cases hj : 1 < j - t
      · rw [if_pos hj, if_pos (by omega)]
      · rw [if_neg hj, if_neg (by omega)]
    | cons c k2 ihk =>
      intro j t hk hn
      have hcℓ : c.length = L := hk c (List.mem_cons_self c k2)
      have hr1 : 1 ≤ r.length := List.length_pos.mpr hne
      simp only [List.length_cons, List.map_cons, List.sum_cons] at hn
      have hrec := ihk (j + 1) t
        (fun x hx => hk x (List.mem_cons_of_mem c hx))
        (by simp only [List.map_cons, List.sum_cons]; omega)
      rw [List.cons_append]
      simp only [rwclAux, hcℓ, lt_self_iff_false, false_and, if_false,
        eq_self_iff_true, true_and]
      rw [hrec]
      simp only [Option.map_some', Option.some.injEq, List.nil_append]
      rw [if_neg (by omega)]
      simp only [g1Out, List.length_cons]
      have harith : j + 1 + k2.length = j + (k2.length + 1) := by omega
      rw [harith]
      simp

lemma rangesWCL_of_sorted (l : List (List α))
    (hs : List.Pairwise (fun a b : List α => a.length ≤ b.length) l)
    (h1 : ∀ c ∈ l, 1 ≤ c.length) :
    rangesWithConstantLength l = some (runRanges 0 (lenRuns l)) := by
  have hrf : RunsFrom 0 (lenRuns l) :=
    lenRuns_runsFrom l 0 hs (fun c hc => h1 c hc)
  have hlenS : l.length =
      0 + (0 : ℕ) + ((lenRuns l).map List.length).sum := by
    conv_lhs => rw [← lenRuns_flatten l]
    simp [List.length_flatten]
  have hsp := rwclAux_spec l.length (lenRuns l) 0 hrf [] 0 0
    (by intro c hc; simp at hc) (by simpa using hlenS)
  rw [List.nil_append, lenRuns_flatten] at hsp
  unfold rangesWithConstantLength
  rw [hsp]
  cases hr : lenRuns l with
  | nil => simp [g1Out, runRanges]
  | cons r rs => simp [g1Out]

lemma rwclAux_sorted_isSome (n : ℕ) :
    ∀ (m : List (List α)) (j t L : ℕ),
      List.Pairwise (fun a b : List α => a.length ≤ b.length) m →
      (∀ c ∈ m, L ≤ c.length) →
      ∃ out, rwclAux n m j t L = some out := by
  intro m
  induction m with
  | nil =>
    intro j t L _ _
    exact ⟨[], rfl⟩
  | cons y rest ih =>
    intro j t L hs hge
    obtain ⟨out, hout⟩ := ih (j + 1) (if L < y.length then j else t)
      y.length hs.of_cons (fun c hc => List.rel_of_pairwise_cons hs hc)
    have hnl : ¬y.length < L := by
      have := hge y (List.mem_cons_self y rest)
      omega
    refine ⟨(if L < y.length ∧ 1 < j - t then [(t, j)] else []) ++
      ((if y.length = L ∧ j + 1 = n then [(t, j + 1)] else []) ++ out), ?_⟩
    simp only [rwclAux, if_neg hnl]
    rw [hout]
    simp [List.append_assoc]

lemma applyRanges_runRanges [DecidableEq α] (e : α) :
    ∀ (R : List (List (List α))) (pre : List (List α)),
      applyRanges e (runRanges pre.length R) (pre ++ R.flatten) =
        pre ++ (R.map (sortByIndexOf e)).flatten := by
  intro R
  induction R with
  | nil =>
    intro pre
    simp [applyRanges, runRanges]
  | cons r rs ih =>
    intro pre
    have hslice :
        sortSliceByIndex e (pre ++ (r ++ rs.flatten)) pre.length
          (pre.length + r.length) = (pre ++ sortByIndexOf e r) ++
            rs.flatten := by
      unfold sortSliceByIndex
      have ht : (pre ++ (r ++ rs.flatten)).take pre.length = pre :=
        List.take_left pre (r ++ rs.flatten)
      have hd : (pre ++ (r ++ rs.flatten)).drop pre.length =
          r ++ rs.flatten := List.drop_left pre (r ++ rs.flatten)
      have hsub : pre.length + r.length - pre.length = r.length := by omega
      have hd2 : (pre ++ (r ++ rs.flatten)).drop (pre.length + r.length) =
          rs.flatten := by
        rw [← List.append_assoc, ← List.length_append]
        exact List.drop_left (pre ++ r) rs.flatten
      rw [ht, hd, hsub, List.take_left r rs.flatten, hd2,
        List.append_assoc]
    by_cases h2 : 2 ≤ r.length
    · simp only [runRanges, if_pos h2, List.flatten_cons, List.map_cons,
        List.singleton_append, applyRanges, List.foldl_cons]
      rw [hslice]
      have hlen2 : pre.length + r.length =
          (pre ++ sortByIndexOf e r).length := by
        simp [sortByIndexOf_length]
      rw [hlen2]
      have hih := ih (pre ++ sortByIndexOf e r)
      simp only [applyRanges] at hih
      rw [hih]
      simp
    · simp only [runRanges, if_neg h2, List.flatten_cons, List.map_cons,
        List.nil_append]
      have hsmall : sortByIndexOf e r = r :=
        sortByIndexOf_small e r (by omega)
      have hlen2 : pre.length + r.length = (pre ++ r).length := by
        simp
      rw [← List.append_assoc, hlen2]
      have hih := ih (pre ++ r)
      simp only [applyRanges] at hih
      simp only [applyRanges]
      rw [hih]
      simp [hsmall]

lemma runsFrom_flatten_len_gt [DecidableEq α] (e : α) (L : ℕ)
    (R : List (List (List α))) (hR : RunsFrom L R) :
    ∀ b ∈ (R.map (sortByIndexOf e)).flatten, L < b.length := by
  induction hR with
  | nil L => simp
  | cons L ℓ2 r rs hL hne hlen hrest ih =>
    intro b hb
    simp only [List.map_cons, List.flatten_cons, List.mem_append] at hb
    rcases hb with hb | hb
    · have hbr : b ∈ r := (sortByIndexOf_perm e r).mem_iff.mp hb
      rw [hlen b hbr]
      exact hL
    · exact Nat.lt_trans hL (ih b hb)

lemma pairwise_hierRel_flatten [DecidableEq α] (e : α) (L : ℕ)
    (R : List (List (List α))) (hR : RunsFrom L R) :
    List.Pairwise (hierRel e) ((R.map (sortByIndexOf e)).flatten) := by
  induction hR with
  | nil L => simp
  | cons L ℓ2 r rs hL hne hlen hrest ih =>
    simp only [List.map_cons, List.flatten_cons]
    rw [List.pairwise_append]
    refine ⟨?_, ih, ?_⟩
    · refine (sortByIndexOf_pairwise e r).imp_of_mem ?_
      intro a b ha hb hab
      right
      refine ⟨?_, hab⟩
      rw [hlen a ((sortByIndexOf_perm e r).mem_iff.mp ha),
        hlen b ((sortByIndexOf_perm e r).mem_iff.mp hb)]
    · intro a ha b hb
      left
      rw [hlen a ((sortByIndexOf_perm e r).mem_iff.mp ha)]
      exact runsFrom_flatten_len_gt e ℓ2 rs hrest b hb

lemma flatten_map_sort_perm [DecidableEq α] (e : α) :
    ∀ R : List (List (List α)),
      ((R.map (sortByIndexOf e)).flatten).Perm R.flatten := by
  intro R
  induction R with
  | nil => simp
  | cons r rs ih =>
    simp only [List.map_cons, List.flatten_cons]
    exact (sortByIndexOf_perm e r).append ih

lemma orderCombinations_eq [DecidableEq α] (cs : List (List α)) (e : α)
    (h1 : ∀ c ∈ cs, 1 ≤ c.length) :
    orderCombinations cs e =
      some ((((lenRuns (sortByLength cs)).map
        (sortByIndexOf e)).flatten).reverse) := by
  have hs := sortByLength_pairwise cs
  have h1s : ∀ c ∈ sortByLength cs, 1 ≤ c.length := fun c hc =>
    h1 c ((sortByLength_perm cs).mem_iff.mp hc)
  simp only [orderCombinations]
  rw [rangesWCL_of_sorted _ hs h1s]
  simp only [Option.map_some', Option.some.injEq]
  have happ := applyRanges_runRanges e (lenRuns (sortByLength cs)) []
  simp only [List.nil_append, List.length_nil] at happ
  rw [lenRuns_flatten] at happ
  rw [happ]

lemma orderCombinations_isSome [DecidableEq α] (cs : List (List α))
    (e : α) : ∃ out, orderCombinations cs e = some out := by
  obtain ⟨rs, hrs⟩ := rwclAux_sorted_isSome (sortByLength cs).length
    (sortByLength cs) 0 0 0 (sortByLength_pairwise cs)
    (fun c _ => Nat.zero_le _)
  refine ⟨(applyRanges e rs (sortByLength cs)).reverse, ?_⟩
  simp only [orderCombinations, rangesWithConstantLength, hrs,
    Option.map_some']

end HierarchyProofs

/-- **C1**: for every set of combinations sharing a common event (each
containing it), `_order_combinations` succeeds and returns a list in
which strictly longer combinations come before shorter ones, and among
combinations of equal length one in which the shared event occurs at a
higher (later) index comes before one where it occurs at a lower index.
The hierarchy handler tries its sub-handlers in exactly this order
(mapping_parser.py:237-242). -/
theorem C1_hierarchy_order (cs : List (List InputEvent)) (e : InputEvent)
    (h : ∀ c ∈ cs, e ∈ c) :
    ∃ out, orderCombinations cs e = some out ∧
      List.Pairwise
        (fun a b => b.length < a.length ∨
          (a.length = b.length ∧ b.indexOf e ≤ a.indexOf e)) out := by
  have h1 : ∀ c ∈ cs, 1 ≤ c.length := fun c hc =>
    List.length_pos.mpr (List.ne_nil_of_mem (h c hc))
  rw [orderCombinations_eq cs e h1]
  refine ⟨_, rfl, ?_⟩
  rw [List.pairwise_reverse]
  have hp := pairwise_hierRel_flatten e 0 (lenRuns (sortByLength cs))
    (lenRuns_runsFrom (sortByLength cs) 0 (sortByLength_pairwise cs)
      (fun c hc => h1 c ((sortByLength_perm cs).mem_iff.mp hc)))
  refine hp.imp ?_
  intro a b hab
  rcases hab with hlt | ⟨heq, hle⟩
  · exact Or.inl hlt
  · exact Or.inr ⟨heq.symm, hle⟩

/-- **C1** witness: the theorem applied to three concrete combinations of
lengths 1, 2, 3 sharing a common event. -/
theorem C1_hierarchy_order_witness :
    ∃ out, orderCombinations
        [[(⟨1, 30, 1, none⟩ : InputEvent)],
          [⟨1, 31, 1, none⟩, ⟨1, 30, 1, none⟩],
          [⟨1, 30, 1, none⟩, ⟨1, 31, 1, none⟩, ⟨1, 32, 1, none⟩]]
        ⟨1, 30, 1, none⟩ = some out ∧
      List.Pairwise
        (fun a b => b.length < a.length ∨
          (a.length = b.length ∧
            b.indexOf (⟨1, 30, 1, none⟩ : InputEvent) ≤
              a.indexOf ⟨1, 30, 1, none⟩)) out :=
  C1_hierarchy_order
    [[⟨1, 30, 1, none⟩], [⟨1, 31, 1, none⟩, ⟨1, 30, 1, none⟩],
      [⟨1, 30, 1, none⟩, ⟨1, 31, 1, none⟩, ⟨1, 32, 1, none⟩]]
    ⟨1, 30, 1, none⟩ (by decide)

/-- **C10**: for every non-empty list of combinations sharing a common
event, `_order_combinations` succeeds and returns a permutation of its
input: no combination is dropped or duplicated by the ranking step. -/
theorem C10_order_combinations_permutation (cs : List (List InputEvent))
    (e : InputEvent) (_hne : cs ≠ []) (h : ∀ c ∈ cs, e ∈ c) :
    ∃ out, orderCombinations cs e = some out ∧ out.Perm cs := by
  have h1 : ∀ c ∈ cs, 1 ≤ c.length := fun c hc =>
    List.length_pos.mpr (List.ne_nil_of_mem (h c hc))
  rw [orderCombinations_eq cs e h1]
  refine ⟨_, rfl, ?_⟩
  have p1 := List.reverse_perm
    (((lenRuns (sortByLength cs)).map (sortByIndexOf e)).flatten)
  have p2 := flatten_map_sort_perm e (lenRuns (sortByLength cs))
  have p3 : (lenRuns (sortByLength cs)).flatten = sortByLength cs :=
    lenRuns_flatten _
  exact p1.trans (p2.trans (by rw [p3]; exact sortByLength_perm cs))

/-- **C10** witness: the theorem applied to two concrete combinations
sharing an event. -/
theorem C10_order_combinations_permutation_witness :
    ∃ out, orderCombinations
        [[(⟨1, 30, 1, none⟩ : InputEvent), ⟨1, 31, 1, none⟩],
          [⟨1, 30, 1, none⟩]] ⟨1, 30, 1, none⟩ = some out ∧
      out.Perm
        [[(⟨1, 30, 1, none⟩ : InputEvent), ⟨1, 31, 1, none⟩],
          [⟨1, 30, 1, none⟩]] :=
  C10_order_combinations_permutation
    [[⟨1, 30, 1, none⟩, ⟨1, 31, 1, none⟩], [⟨1, 30, 1, none⟩]]
    ⟨1, 30, 1, none⟩ (by decide) (by decide)

/-! ## C9: error behaviour of `parse_mappings` -/

lemma parseHandlers_error_of_unclassifiable (iface : HandlerIface)
    (isMacroFn : String → Bool) (fuel : ℕ) :
    ∀ preset : List PMapping,
      (∃ m ∈ preset,
        getOutputHandler isMacroFn m = .error .mappingParsingError) →
      ∃ err, parseHandlers iface isMacroFn fuel preset = .error err := by
  intro preset
  induction preset with
  | nil =>
    rintro ⟨m, hm, _⟩
    simp at hm
  | cons m0 ms ih =>
    rintro ⟨m, hm, herr⟩
    simp only [parseHandlers]
    cases hg : getOutputHandler isMacroFn m0 with
    | error e => exact ⟨e, rfl⟩
    | ok enum =>
      dsimp only
      have hmem : m ∈ ms := by
        rcases List.mem_cons.mp hm with rfl | hmm2
        · rw [hg] at herr
          cases herr
        · exact hmm2
      by_cases himp : implementedEnum enum = true
      · rw [if_pos himp]
        cases hc : createEventPipeline iface fuel
            (.node enum m0.event_combination (some m0) [] none) false with
        | error e => exact ⟨e, rfl⟩
        | ok hs =>
          dsimp only
          obtain ⟨err, herr2⟩ := ih ⟨m, hmem, herr⟩
          rw [herr2]
          exact ⟨err, rfl⟩
      · rw [if_neg himp]
        exact ⟨.notImplemented, rfl⟩

lemma extractRanking_error (iface : HandlerIface) :
    ∀ (hs : List PHandler) (acc : List (List InputEvent × PHandler)),
      (∃ h ∈ hs, iface.needsRanking h = true ∧
        (iface.rankBy h = none ∨ iface.rankBy h = some [])) →
      extractRanking iface hs acc = .error .mappingParsingError := by
  intro hs
  induction hs with
  | nil =>
    rintro acc ⟨h, hm, _⟩
    simp at hm
  | cons h0 rest ih =>
    rintro acc ⟨h, hm, hrank, hfalsy⟩
    simp only [extractRanking]
    by_cases hr0 : iface.needsRanking h0 = true
    · rw [if_pos hr0]
      cases hb : iface.rankBy h0 with
      | none => rfl
      | some c =>
        cases c with
        | nil => rfl
        | cons c0 cs =>
          have hmem : h ∈ rest := by
            rcases List.mem_cons.mp hm with rfl | hmm2
            · rcases hfalsy with hf | hf <;> rw [hb] at hf <;> cases hf
            · exact hmm2
          exact ih (dictInsert acc (c0 :: cs) h0) ⟨h, hmem, hrank, hfalsy⟩
    · rw [if_neg hr0]
      have hmem : h ∈ rest := by
        rcases List.mem_cons.mp hm with rfl | hmm2
        · exact absurd hrank hr0
        · exact hmm2
      rw [ih acc ⟨h, hmem, hrank, hfalsy⟩]

lemma parseHandlers_ok (iface : HandlerIface) (isMacroFn : String → Bool)
    (fuel : ℕ)
    (Hwrap : ∀ h ig, ∃ hs, createEventPipeline iface fuel h ig = .ok hs) :
    ∀ preset : List PMapping,
      (∀ m ∈ preset, ∃ en, getOutputHandler isMacroFn m = .ok en ∧
        implementedEnum en = true) →
      ∃ hs, parseHandlers iface isMacroFn fuel preset = .ok hs := by
  intro preset
  induction preset with
  | nil => exact fun _ => ⟨[], rfl⟩
  | cons m ms ih =>
    intro hcl
    obtain ⟨en, hen, himp⟩ := hcl m (List.mem_cons_self m ms)
    obtain ⟨hs1, hws⟩ :=
      Hwrap (.node en m.event_combination (some m) [] none) false
    obtain ⟨rest, hrest⟩ := ih (fun x hx => hcl x (List.mem_cons_of_mem m hx))
    refine ⟨hs1 ++ rest, ?_⟩
    simp only [parseHandlers, hen, if_pos himp, hws, hrest]

lemma extractRanking_ok (iface : HandlerIface)
    (Hrank : ∀ h, iface.needsRanking h = true →
      ∃ c, iface.rankBy h = some c ∧ c ≠ []) :
    ∀ (hs : List PHandler) (acc : List (List InputEvent × PHandler)),
      ∃ res, extractRanking iface hs acc = .ok res := by
  intro hs
  induction hs with
  | nil => exact fun acc => ⟨([], acc), rfl⟩
  | cons h0 rest ih =>
    intro acc
    by_cases hr0 : iface.needsRanking h0 = true
    · obtain ⟨c, hc, hcne⟩ := Hrank h0 hr0
      cases c with
      | nil => exact absurd rfl hcne
      | cons c0 cs =>
        obtain ⟨res, hres⟩ := ih (dictInsert acc (c0 :: cs) h0)
        exact ⟨res, by simp only [extractRanking, if_pos hr0, hc, hres]⟩
    · obtain ⟨⟨ks, d⟩, hres⟩ := ih acc
      refine ⟨(h0 :: ks, d), ?_⟩
      simp only [extractRanking, if_neg hr0, hres]

lemma hierLoop_ok (ks : List (List InputEvent)) :
    ∀ (events : List InputEvent) (st : HierState),
      ∃ st2, hierLoop ks events st = .ok st2 := by
  intro events
  induction events with
  | nil => exact fun st => ⟨st, rfl⟩
  | cons e es ih =>
    intro st
    simp only [hierLoop]
    rcases hidx : (List.range ks.length).filter (fun i => e ∈ ks.getD i [])
      with _ | ⟨i, _ | ⟨i2, irest⟩⟩
    · dsimp only
      obtain ⟨out, hout⟩ := orderCombinations_isSome
        (List.map (fun i => ks.getD i []) ([] : List ℕ)) e
      rw [hout]
      exact ih _
    · dsimp only
      exact ih _
    · dsimp only
      obtain ⟨out, hout⟩ := orderCombinations_isSome
        (List.map (fun i => ks.getD i []) (i :: i2 :: irest)) e
      rw [hout]
      exact ih _

lemma createHierarchyHandlers_ok (d : List (List InputEvent × PHandler)) :
    ∃ res, createHierarchyHandlers d = .ok res := by
  obtain ⟨st2, hst⟩ := hierLoop_ok (d.map Prod.fst)
    (gatherEvents (d.map Prod.fst)) ⟨[], []⟩
  refine ⟨resolveOuts (applyOccl d st2.occl) st2.outs, ?_⟩
  simp only [createHierarchyHandlers, hst]

lemma repipe_ok (iface : HandlerIface) (fuel : ℕ)
    (Hwrap : ∀ h ig, ∃ hs, createEventPipeline iface fuel h ig = .ok hs) :
    ∀ hs : List PHandler, ∃ res, repipe iface fuel hs = .ok res := by
  intro hs
  induction hs with
  | nil => exact ⟨[], rfl⟩
  | cons h rest ih =>
    obtain ⟨out, hout⟩ := Hwrap h true
    obtain ⟨res, hres⟩ := ih
    exact ⟨out ++ res, by simp only [repipe, hout, hres]⟩

/-- **C9** counterexample: a preset consisting of one mapping with a
relative-axis input event (value 0) and relative output type is
*classified* (to the `rel2rel` variant) and triggers neither of the two
claimed error conditions — yet `parse_mappings` does not return a
pipeline: it raises `NotImplementedError`
(mapping_parser.py:64-69,83-86), falsifying the claim's "for every preset
free of both conditions, parsing returns a pipeline". -/
theorem C9_counterexample :
    getOutputHandler (fun _ => false)
        ⟨none, none, some EV_REL, [⟨EV_REL, 0, 0, none⟩]⟩ =
      .ok .rel2rel ∧
    parseMappings
        ⟨fun _ => false, fun _ => [], fun _ => false, fun _ => none⟩
        (fun _ => false) 1
        [⟨none, none, some EV_REL, [⟨EV_REL, 0, 0, none⟩]⟩] =
      .error .notImplemented :=
  ⟨rfl, rfl⟩

/-- **C9** (amended): (1) whenever some mapping's output cannot be
classified as macro, key, or resolvable axis target, parsing aborts with
an error (no partial result); (2) whenever handler construction succeeds
and some handler claims it needs ranking but returns no combination to
rank by, parsing aborts with the fatal `MappingParsingError`; (3) for
every preset in which each mapping classifies to an *implemented* handler
variant (the button↔axis conversion variants abort with
`NotImplementedError` instead), handler wrapping succeeds, and every
ranking handler returns a non-empty combination, parsing returns a
pipeline raising neither error — in particular the hierarchy phase's own
`MappingParsingError` (an unordered `ranges_with_constant_length` input)
can never fire, because `_order_combinations` sorts first. -/
theorem C9_parse_fatal_errors (iface : HandlerIface)
    (isMacroFn : String → Bool) (fuel : ℕ) (preset : List PMapping) :
    ((∃ m ∈ preset,
        getOutputHandler isMacroFn m = .error .mappingParsingError) →
      ∃ err, parseMappings iface isMacroFn fuel preset = .error err) ∧
    (∀ handlers, parseHandlers iface isMacroFn fuel preset = .ok handlers →
      (∃ h ∈ handlers, iface.needsRanking h = true ∧
        (iface.rankBy h = none ∨ iface.rankBy h = some [])) →
      parseMappings iface isMacroFn fuel preset =
        .error .mappingParsingError) ∧
    ((∀ m ∈ preset, ∃ en, getOutputHandler isMacroFn m = .ok en ∧
        implementedEnum en = true) →
      (∀ h ig, ∃ hs, createEventPipeline iface fuel h ig = .ok hs) →
      (∀ h, iface.needsRanking h = true →
        ∃ c, iface.rankBy h = some c ∧ c ≠ []) →
      ∃ pipe, parseMappings iface isMacroFn fuel preset = .ok pipe) := by
  refine ⟨?_, ?_, ?_⟩
  · intro hex
    obtain ⟨err, herr⟩ :=
      parseHandlers_error_of_unclassifiable iface isMacroFn fuel preset hex
    exact ⟨err, by simp only [parseMappings, herr]⟩
  · intro handlers hph hex
    simp only [parseMappings, hph,
      extractRanking_error iface handlers [] hex]
  · intro Hclass Hwrap Hrank
    obtain ⟨handlers, hph⟩ :=
      parseHandlers_ok iface isMacroFn fuel Hwrap preset Hclass
    obtain ⟨⟨ks, d⟩, hex⟩ := extractRanking_ok iface Hrank handlers []
    obtain ⟨ranked, hch⟩ := createHierarchyHandlers_ok d
    obtain ⟨repiped, hrp⟩ := repipe_ok iface fuel Hwrap ranked
    refine ⟨assemble (ks ++ repiped), ?_⟩
    simp only [parseMappings, hph, hex, hch, hrp]

/-- **C9** witness: the amended theorem's completeness part applied to a
one-mapping "disabled" preset under a trivial handler interface. -/
theorem C9_parse_fatal_errors_witness :
    ∃ pipe, parseMappings
        ⟨fun _ => false, fun _ => [], fun _ => false, fun _ => none⟩
        (fun _ => false) 1 [⟨some (-1), none, none, []⟩] = .ok pipe :=
  (C9_parse_fatal_errors
      ⟨fun _ => false, fun _ => [], fun _ => false, fun _ => none⟩
      (fun _ => false) 1 [⟨some (-1), none, none, []⟩]).2.2
    (by
      intro m hm
      rw [List.mem_singleton] at hm
      subst hm
      exact ⟨.disable, rfl, rfl⟩)
    (by
      intro h ig
      exact ⟨[h], by simp [createEventPipeline]⟩)
    (by
      intro h hc
      exact absurd hc (by simp))

end KeyMapper
